import Mathlib

/-!  Verification of the pyvolve rate-matrix construction and tree-simulation
engine against its design specification.  The repository under review ships
only an example driver (`examples/run_pyvolve.py`) and the evolver test suite
(`tests/evolver_test.py`); the core modules (`matrix_builder.py`,
`evolver.py`, ...) are not among the sources, so the definitions below are
modelled from the specification, with the test suite fixing the concrete
output formats it checks. -/

namespace Pyvolve

/-- Modelled from the spec: the common `buildQ` form shared by every
rate-matrix builder (missing source file `matrix_builder.py`).  Off-diagonal
entries are the builder's rates; each diagonal entry is the negated sum of
its row's off-diagonal entries. -/
def buildQgen {n : ℕ} {α : Type} [CommRing α] (r : Fin n → Fin n → α) :
    Matrix (Fin n) (Fin n) α :=
  Matrix.of fun i j => if i = j then -(∑ k ∈ Finset.univ.erase i, r i k) else r i j

theorem buildQgen_offdiag {n : ℕ} {α : Type} [CommRing α] (r : Fin n → Fin n → α)
    {i j : Fin n} (h : i ≠ j) : buildQgen r i j = r i j := by
  simp [buildQgen, h]

theorem buildQgen_diag {n : ℕ} {α : Type} [CommRing α] (r : Fin n → Fin n → α)
    (i : Fin n) : buildQgen r i i = -(∑ k ∈ Finset.univ.erase i, r i k) := by
  simp [buildQgen]

theorem buildQgen_erase_sum {n : ℕ} {α : Type} [CommRing α] (r : Fin n → Fin n → α)
    (i : Fin n) :
    ∑ j ∈ Finset.univ.erase i, buildQgen r i j = ∑ j ∈ Finset.univ.erase i, r i j :=
  Finset.sum_congr rfl fun j hj =>
    buildQgen_offdiag r (Ne.symm (Finset.ne_of_mem_erase hj))

theorem buildQgen_rowsum {n : ℕ} {α : Type} [CommRing α] (r : Fin n → Fin n → α)
    (i : Fin n) : ∑ j, buildQgen r i j = 0 := by
  rw [← Finset.sum_erase_add _ _ (Finset.mem_univ i), buildQgen_erase_sum,
    buildQgen_diag]
  exact add_neg_cancel _

/-- A rate matrix is well-formed when every row sums to zero (hence lies
within the 1e-10 tolerance), off-diagonal entries are nonnegative, and each
diagonal entry equals the negated sum of its row's off-diagonal entries. -/
def Qwellformed {n : ℕ} (Q : Matrix (Fin n) (Fin n) ℝ) : Prop :=
  (∀ i, ∑ j, Q i j = 0) ∧
  (∀ i, |∑ j, Q i j| ≤ 1 / 10 ^ 10) ∧
  (∀ i j, i ≠ j → 0 ≤ Q i j) ∧
  (∀ i, Q i i = -(∑ j ∈ Finset.univ.erase i, Q i j))

theorem buildQgen_wellformed {n : ℕ} (r : Fin n → Fin n → ℝ)
    (hr : ∀ i j, i ≠ j → 0 ≤ r i j) : Qwellformed (buildQgen r) := by
  refine ⟨buildQgen_rowsum r, ?_, ?_, ?_⟩
  · intro i
    rw [buildQgen_rowsum r i, abs_zero]
    positivity
  · intro i j hij
    rw [buildQgen_offdiag r hij]
    exact hr i j hij
  · intro i
    rw [buildQgen_diag r i, buildQgen_erase_sum r i]

/-- Modelled from the spec: the nucleotide builder's off-diagonal rate,
rate(i→j) = exchangeability(i,j) × stationary(j) over 4 states (missing
source file `matrix_builder.py`). -/
def nucRate (exch : Fin 4 → Fin 4 → ℝ) (freq : Fin 4 → ℝ) (i j : Fin 4) : ℝ :=
  exch i j * freq j

/-- Modelled from the spec: `nucleotide_Matrix.buildQ` (missing source file
`matrix_builder.py`). -/
def nucleotide_buildQ (exch : Fin 4 → Fin 4 → ℝ) (freq : Fin 4 → ℝ) :
    Matrix (Fin 4) (Fin 4) ℝ :=
  buildQgen (nucRate exch freq)

/-- Modelled from the spec: the amino-acid builder's off-diagonal rate,
an empirical exchangeability times the stationary frequency, over 20 states
(missing source file `matrix_builder.py`). -/
def aminoAcidRate (exch : Fin 20 → Fin 20 → ℝ) (freq : Fin 20 → ℝ)
    (i j : Fin 20) : ℝ :=
  exch i j * freq j

/-- Modelled from the spec: `aminoAcid_Matrix.buildQ` (missing source file
`matrix_builder.py`). -/
def aminoAcid_buildQ (exch : Fin 20 → Fin 20 → ℝ) (freq : Fin 20 → ℝ) :
    Matrix (Fin 20) (Fin 20) ℝ :=
  buildQgen (aminoAcidRate exch freq)

/-- Modelled from the spec: the empirical codon (ECM) builder's off-diagonal
rate over the 61 sense codons, an empirical exchangeability times the
stationary frequency, optionally restricted to a synonymous-only or
non-synonymous-only subset of transitions (missing source file
`matrix_builder.py`). -/
def ECMRate (exch : Fin 61 → Fin 61 → ℝ) (freq : Fin 61 → ℝ)
    (allowed : Fin 61 → Fin 61 → Bool) (i j : Fin 61) : ℝ :=
  if allowed i j then exch i j * freq j else 0

/-- Modelled from the spec: `ECM_Matrix.buildQ` (missing source file
`matrix_builder.py`). -/
def ECM_buildQ (exch : Fin 61 → Fin 61 → ℝ) (freq : Fin 61 → ℝ)
    (allowed : Fin 61 → Fin 61 → Bool) : Matrix (Fin 61) (Fin 61) ℝ :=
  buildQgen (ECMRate exch freq allowed)

/-- Modelled from the spec: the mechanistic codon (GY94/MG94) builder's
off-diagonal rate (missing source file `matrix_builder.py`).  `nucChange i j`
is the Alphabet's pure-lookup single-nucleotide-difference map: it returns
the differing nucleotide pair when codons `i` and `j` differ at exactly one
position and `none` otherwise; `aa` is the Alphabet's genetic-code mapping.
The rate is zero unless the codons differ by exactly one nucleotide, and is
the mutation rate of that nucleotide change times the selection factor
(`sel` = ω, or β/α) when the encoded amino acids differ. -/
def mechCodonRate (mu : Fin 4 → Fin 4 → ℝ) (sel : ℝ)
    (nucChange : Fin 61 → Fin 61 → Option (Fin 4 × Fin 4))
    (aa : Fin 61 → Fin 21) (i j : Fin 61) : ℝ :=
  match nucChange i j with
  | none => 0
  | some p => mu p.1 p.2 * (if aa i = aa j then 1 else sel)

/-- Modelled from the spec: `mechCodon_Matrix.buildQ` (missing source file
`matrix_builder.py`). -/
def mechCodon_buildQ (mu : Fin 4 → Fin 4 → ℝ) (sel : ℝ)
    (nucChange : Fin 61 → Fin 61 → Option (Fin 4 × Fin 4))
    (aa : Fin 61 → Fin 21) : Matrix (Fin 61) (Fin 61) ℝ :=
  buildQgen (mechCodonRate mu sel nucChange aa)

/-- Modelled from the spec: the Halpern–Bruno fixation-probability function,
`x / (1 − e^(−x))` for `x ≠ 0`, with the removable singularity at `x = 0`
handled explicitly as `1` (missing source file `matrix_builder.py`). -/
noncomputable def fixationFunction (x : ℝ) : ℝ :=
  if x = 0 then 1 else x / (1 - Real.exp (-x))

/-- Modelled from the spec: the mutation-selection builder's off-diagonal
rate, mutationRate(i→j) × fixationFunction(fitness(j) − fitness(i)),
applicable to any alphabet size (missing source file `matrix_builder.py`). -/
noncomputable def mutSelRate {n : ℕ} (mu : Fin n → Fin n → ℝ)
    (fitness : Fin n → ℝ) (i j : Fin n) : ℝ :=
  mu i j * fixationFunction (fitness j - fitness i)

/-- Modelled from the spec: `mutSel_Matrix.buildQ` (missing source file
`matrix_builder.py`). -/
noncomputable def mutSel_buildQ {n : ℕ} (mu : Fin n → Fin n → ℝ)
    (fitness : Fin n → ℝ) : Matrix (Fin n) (Fin n) ℝ :=
  buildQgen (mutSelRate mu fitness)

theorem sub_exp_neg_pos_of_pos {x : ℝ} (hx : 0 < x) : 0 < 1 - Real.exp (-x) := by
  have h := Real.exp_lt_one_iff.mpr (neg_neg_of_pos hx)
  linarith

theorem sub_exp_neg_neg_of_neg {x : ℝ} (hx : x < 0) : 1 - Real.exp (-x) < 0 := by
  have h := Real.one_lt_exp_iff.mpr (neg_pos.mpr hx)
  linarith

theorem fixationFunction_pos (x : ℝ) : 0 < fixationFunction x := by
  unfold fixationFunction
  rcases eq_or_ne x 0 with h | h
  · simp [h]
  · rw [if_neg h]
    rcases lt_or_gt_of_ne h with hneg | hpos
    · exact div_pos_iff.mpr (Or.inr ⟨hneg, sub_exp_neg_neg_of_neg hneg⟩)
    · exact div_pos_iff.mpr (Or.inl ⟨hpos, sub_exp_neg_pos_of_pos hpos⟩)

theorem fixationFunction_zero : fixationFunction 0 = 1 := by
  simp [fixationFunction]

theorem fixation_denom_ne_zero {x : ℝ} (h : x ≠ 0) : 1 - Real.exp (-x) ≠ 0 := by
  rcases lt_or_gt_of_ne h with hneg | hpos
  · exact ne_of_lt (sub_exp_neg_neg_of_neg hneg)
  · exact ne_of_gt (sub_exp_neg_pos_of_pos hpos)

/-- The all-ones square matrix, used to express row sums as a matrix product. -/
def allOnes (n : ℕ) : Matrix (Fin n) (Fin n) ℝ :=
  Matrix.of fun _ _ => (1 : ℝ)

/-- Modelled from the spec: the transition-probability engine,
P(t) = exp(Q·t) (missing source file `model.py` / the SubstitutionModel
machinery). -/
noncomputable def transitionMatrix {n : ℕ} (Q : Matrix (Fin n) (Fin n) ℝ)
    (t : ℝ) : Matrix (Fin n) (Fin n) ℝ :=
  NormedSpace.exp ℝ (t • Q)

theorem exp_mul_allOnes {n : ℕ} (A : Matrix (Fin n) (Fin n) ℝ)
    (h : A * allOnes n = 0) : NormedSpace.exp ℝ A * allOnes n = allOnes n := by
  letI : SeminormedRing (Matrix (Fin n) (Fin n) ℝ) := Matrix.linftyOpSemiNormedRing
  letI : NormedRing (Matrix (Fin n) (Fin n) ℝ) := Matrix.linftyOpNormedRing
  letI : NormedAlgebra ℝ (Matrix (Fin n) (Fin n) ℝ) := Matrix.linftyOpNormedAlgebra
  rw [NormedSpace.exp_eq_tsum]
  rw [← Summable.tsum_mul_right (allOnes n) (NormedSpace.expSeries_summable' A)]
  rw [tsum_eq_single 0 ?_]
  · simp
  · intro k hk
    obtain ⟨m, rfl⟩ := Nat.exists_eq_succ_of_ne_zero hk
    rw [smul_mul_assoc, pow_succ, mul_assoc, h, mul_zero, smul_zero]

theorem mul_allOnes_eq_zero {n : ℕ} (Q : Matrix (Fin n) (Fin n) ℝ)
    (h : ∀ i, ∑ j, Q i j = 0) : Q * allOnes n = 0 := by
  ext i j
  simp only [Matrix.mul_apply, allOnes, Matrix.of_apply, mul_one,
    Matrix.zero_apply]
  exact h i

theorem transitionMatrix_rowsum {n : ℕ} (Q : Matrix (Fin n) (Fin n) ℝ)
    (t : ℝ) (h : ∀ i, ∑ j, Q i j = 0) (i : Fin n) :
    ∑ j, transitionMatrix Q t i j = 1 := by
  have hQ : (t • Q) * allOnes n = 0 := by
    rw [Matrix.smul_mul, mul_allOnes_eq_zero Q h, smul_zero]
  have hE := exp_mul_allOnes (t • Q) hQ
  have hEntry := congrFun (congrFun hE i) i
  simpa only [Matrix.mul_apply, allOnes, Matrix.of_apply, mul_one,
    transitionMatrix] using hEntry

theorem transitionMatrix_zero {n : ℕ} (Q : Matrix (Fin n) (Fin n) ℝ) :
    transitionMatrix Q 0 = 1 := by
  rw [transitionMatrix, zero_smul, NormedSpace.exp_zero]

/-- Modelled from the spec: a substitution model as the Evolver consumes it
(missing source file `evolver.py`).  It carries the identifying label used
for branch heterogeneity, the stationary distribution, the rate-category
probabilities and relative rates (default: a single category), and the
transition-probability engine as the row-distribution function
`transRow branchLength category parentState`, the interface through which
the Evolver consumes P(t). -/
structure SimModel where
  name : String
  stationary : List ℚ
  probs : List ℚ
  rates : List ℚ
  transRow : ℚ → Nat → Nat → List ℚ

/-- Modelled from the spec: a partition, an integer-length run of positions
bound to one or more models, with an optional root-model designation
(missing source file `evolver.py`). -/
structure SimPartition where
  size : Nat
  models : List SimModel
  root_model : Option String

/-- Modelled from the spec: a rooted binary tree with branch lengths and
optional per-branch model labels, as produced by the external newick reader
(the spec's concrete scenarios are all binary). -/
inductive PTree where
  | tip (name : String) (bl : ℚ) (flag : Option String) : PTree
  | node (name : String) (bl : ℚ) (flag : Option String)
      (left : PTree) (right : PTree) : PTree

/-- Modelled from the spec: the in-process pseudo-random source, a linear
congruential step on a seed (the spec fixes only that randomness comes from
a seeded in-process generator). -/
def lcg (s : Nat) : Nat :=
  (1103515245 * s + 12345) % 2147483648

/-- Draw a rational in [0, 1) and advance the generator. -/
def unitDraw (s : Nat) : ℚ × Nat :=
  let s2 := lcg s
  ((s2 : ℚ) / 2147483648, s2)

/-- Modelled from the spec: categorical sampling over a probability list by
walking cumulative sums, falling back to the last entry. -/
def catSample : List ℚ → ℚ → Nat
  | [], _ => 0
  | [_], _ => 0
  | p :: q :: ps, u => if u < p then 0 else catSample (q :: ps) (u - p) + 1

/-- Modelled from the spec: root assignment for one partition (missing
source file `evolver.py`).  For each position, draw the rate category from
the root model's category probabilities, then draw the root state from its
stationary distribution; the category stays fixed for the life of the
simulation.  Returns the per-position (category, state) pairs and the
advanced seed. -/
def rootAssign (m : SimModel) : Nat → Nat → List (Nat × Nat) × Nat
  | 0, g => ([], g)
  | k + 1, g =>
    let d1 := unitDraw g
    let c := catSample m.probs d1.1
    let d2 := unitDraw d1.2
    let s := catSample m.stationary d2.1
    let rest := rootAssign m k d2.2
    ((c, s) :: rest.1, rest.2)

/-- Modelled from the spec: evolving one branch (missing source file
`evolver.py`).  Each position keeps its fixed rate category and samples the
child state from the active model's transition row for that branch length,
category and parent state. -/
def evolveBranch (m : SimModel) (bl : ℚ) :
    List (Nat × Nat) → Nat → List (Nat × Nat) × Nat
  | [], g => ([], g)
  | cs :: rest, g =>
    let d := unitDraw g
    let s2 := catSample (m.transRow bl cs.1 cs.2) d.1
    let tail := evolveBranch m bl rest d.2
    ((cs.1, s2) :: tail.1, tail.2)

/-- Look up a model by its branch-heterogeneity label. -/
def findModel (ms : List SimModel) (nm : String) : Option SimModel :=
  ms.find? fun m => m.name = nm

/-- Modelled from the spec: branch-label-driven model switching — a branch's
flag overrides the inherited model when it resolves in the partition's model
set, and the inherited model continues otherwise. -/
def resolveFlag (ms : List SimModel) (f : Option String) (cur : SimModel) :
    SimModel :=
  match f with
  | none => cur
  | some nm => (findModel ms nm).getD cur

/-- The flag attached to a node's branch. -/
def flagOf : PTree → Option String
  | .tip _ _ f => f
  | .node _ _ f _ _ => f

/-- The branch length of a node's branch. -/
def blOf : PTree → ℚ
  | .tip _ b _ => b
  | .node _ b _ _ _ => b

/-- A per-node simulation record: node name, whether the node is a leaf,
and its simulated sequence of state indices. -/
structure SeqRecord where
  name : String
  isTip : Bool
  seq : List Nat

/-- Modelled from the spec: pre-order traversal of a subtree (missing source
file `evolver.py`).  `cur` is the model inherited from the parent; the
node's own flag may override it, the branch into the node is evolved from
the parent's per-position (category, state) assignment, and the children are
then visited left to right.  Records come back in pre-order. -/
def evolveTree (ms : List SimModel) (cur : SimModel)
    (parent : List (Nat × Nat)) : PTree → Nat → List SeqRecord × Nat
  | .tip nm bl f, g =>
    let m := resolveFlag ms f cur
    let asg := evolveBranch m bl parent g
    ([⟨nm, true, asg.1.map Prod.snd⟩], asg.2)
  | .node nm bl f l r, g =>
    let m := resolveFlag ms f cur
    let asg := evolveBranch m bl parent g
    let ls := evolveTree ms m asg.1 l asg.2
    let rs := evolveTree ms m asg.1 r ls.2
    (⟨nm, false, asg.1.map Prod.snd⟩ :: (ls.1 ++ rs.1), rs.2)

/-- The partition's base model: the first model in its model set. -/
def baseModel (p : SimPartition) : SimModel :=
  p.models.headD ⟨"", [1], [1], [1], fun _ _ _ => [1]⟩

/-- The model designated to generate the root sequence: the model named by
`root_model` when it resolves, else the base model. -/
def rootModelOf (p : SimPartition) : SimModel :=
  match p.root_model with
  | none => baseModel p
  | some nm => (findModel p.models nm).getD (baseModel p)

/-- Modelled from the spec: simulating one partition over the whole tree
(missing source file `evolver.py`).  The root sequence and the per-position
rate categories are drawn from the designated root model; the traversal of
the root's subtrees then starts from the partition's base model.  Returns
the pre-order records (root first), the per-position category draws of this
partition, and the advanced seed. -/
def simulatePartition (p : SimPartition) (t : PTree) (g : Nat) :
    List SeqRecord × List Nat × Nat :=
  let asg := rootAssign (rootModelOf p) p.size g
  match t with
  | .tip nm _ _ => ([⟨nm, true, asg.1.map Prod.snd⟩], asg.1.map Prod.fst, asg.2)
  | .node nm _ _ l r =>
    let ls := evolveTree p.models (baseModel p) asg.1 l asg.2
    let rs := evolveTree p.models (baseModel p) asg.1 r ls.2
    (⟨nm, false, asg.1.map Prod.snd⟩ :: (ls.1 ++ rs.1),
      asg.1.map Prod.fst, rs.2)

/-- Records with empty sequences, one per node in pre-order; the fold base
for concatenating independently simulated partitions. -/
def emptyRecords : PTree → List SeqRecord
  | .tip nm _ _ => [⟨nm, true, []⟩]
  | .node nm _ _ l r => ⟨nm, false, []⟩ :: (emptyRecords l ++ emptyRecords r)

/-- Positional concatenation of two partitions' per-node records. -/
def mergeRecords (a b : List SeqRecord) : List SeqRecord :=
  List.zipWith (fun x y => ⟨x.name, x.isTip, x.seq ++ y.seq⟩) a b

/-- Modelled from the spec: the full Evolver run (missing source file
`evolver.py`).  Partitions are simulated independently in order, their
per-node sequences are concatenated positionally, and the per-partition
category draws are collected for the rate log. -/
def simulateParts : List SimPartition → PTree → Nat →
    List SeqRecord × List (List Nat) × Nat
  | [], t, g => (emptyRecords t, [], g)
  | p :: ps, t, g =>
    let r1 := simulatePartition p t g
    let rest := simulateParts ps t r1.2.2
    (mergeRecords r1.1 rest.1, r1.2.1 :: rest.2.1, rest.2.2)

/-- Render the rate-log lines of one partition: one line per position, with
the global 1-based site index, the 1-based partition index, and the 1-based
rate-category index. -/
def renderPartLog (pIdx : Nat) : Nat → List Nat → List String
  | _, [] => []
  | site, c :: cs =>
    (toString site ++ "\t" ++ toString pIdx ++ "\t" ++ toString (c + 1)) ::
      renderPartLog pIdx (site + 1) cs

/-- Render all partitions' rate-log lines, threading the global site index
and the partition index. -/
def rateLogBody : List (List Nat) → Nat → Nat → List String
  | [], _, _ => []
  | cs :: rest, site, pIdx =>
    renderPartLog pIdx site cs ++ rateLogBody rest (site + cs.length) (pIdx + 1)

/-- Modelled from the spec: the rate-log output, one header line plus one
line per sequence position. -/
def rateLogLines (logs : List (List Nat)) : List String :=
  ("Site_Index" ++ "\t" ++ "Partition_Index" ++ "\t" ++ "Rate_Category") ::
    rateLogBody logs 1 1

/-- The rate log as the byte string written to the rate file. -/
def rateLogRender (logs : List (List Nat)) : String :=
  String.intercalate "\n" (rateLogLines logs) ++ "\n"

/-- Modelled from the spec: one FASTA-style record, name line plus sequence
line (state indices standing in for alphabet symbols). -/
def fastaRecord (r : SeqRecord) : String :=
  ">" ++ r.name ++ "\n" ++ String.join (r.seq.map toString) ++ "\n"

/-- Modelled from the spec: the sequence output for a run, ancestors
included or excluded. -/
def writeSequences (anc : Bool) (recs : List SeqRecord) : String :=
  String.join ((if anc then recs else recs.filter fun r => r.isTip).map fastaRecord)

/-- Number of leaves of a tree. -/
def countTips : PTree → Nat
  | .tip _ _ _ => 1
  | .node _ _ _ l r => countTips l + countTips r

/-- Number of internal nodes of a tree (the root included). -/
def countInternal : PTree → Nat
  | .tip _ _ _ => 0
  | .node _ _ _ l r => countInternal l + countInternal r + 1

/-- The (name, is-leaf) skeleton of a tree in pre-order. -/
def nodeMeta : PTree → List (String × Bool)
  | .tip nm _ _ => [(nm, true)]
  | .node nm _ _ l r => (nm, false) :: (nodeMeta l ++ nodeMeta r)

/-- The metadata view of a record. -/
def recMeta (r : SeqRecord) : String × Bool :=
  (r.name, r.isTip)

theorem catSample_lt : ∀ (ps : List ℚ) (u : ℚ), ps ≠ [] → catSample ps u < ps.length
  | [], _, h => absurd rfl h
  | [_], _, _ => by simp [catSample]
  | p :: q :: ps, u, _ => by
    rw [catSample]
    split
    · simp
    · have h := catSample_lt (q :: ps) (u - p) (by simp)
      simpa using Nat.succ_lt_succ h

theorem catSample_singleton (x : ℚ) (u : ℚ) : catSample [x] u = 0 := rfl

theorem rootAssign_length (m : SimModel) :
    ∀ (k : Nat) (g : Nat), (rootAssign m k g).1.length = k
  | 0, _ => rfl
  | k + 1, g => by
    rw [rootAssign]
    simpa using rootAssign_length m k _

theorem rootAssign_cats_lt (m : SimModel) (hm : m.probs ≠ []) :
    ∀ (k : Nat) (g : Nat), ∀ c ∈ (rootAssign m k g).1.map Prod.fst,
      c < m.probs.length
  | 0, _ => by simp [rootAssign]
  | k + 1, g => by
    rw [rootAssign]
    simp only [List.map_cons, List.mem_cons]
    rintro c (rfl | hc)
    · exact catSample_lt m.probs _ hm
    · exact rootAssign_cats_lt m hm k _ c hc

theorem rootAssign_cats_single (m : SimModel) (x : ℚ) (hm : m.probs = [x]) :
    ∀ (k : Nat) (g : Nat),
      (rootAssign m k g).1.map Prod.fst = List.replicate k 0
  | 0, _ => rfl
  | k + 1, g => by
    rw [rootAssign]
    simp only [List.map_cons, List.replicate_succ, hm, catSample_singleton]
    exact List.cons_eq_cons.mpr ⟨rfl, rootAssign_cats_single m x hm k _⟩

theorem evolveBranch_length (m : SimModel) (bl : ℚ) :
    ∀ (asg : List (Nat × Nat)) (g : Nat),
      (evolveBranch m bl asg g).1.length = asg.length
  | [], _ => rfl
  | _ :: rest, g => by
    rw [evolveBranch]
    simpa using evolveBranch_length m bl rest _

theorem evolveTree_meta (ms : List SimModel) :
    ∀ (t : PTree) (cur : SimModel) (parent : List (Nat × Nat)) (g : Nat),
      (evolveTree ms cur parent t g).1.map recMeta = nodeMeta t
  | .tip nm bl f, cur, parent, g => by
    rw [evolveTree]
    simp [nodeMeta, recMeta]
  | .node nm bl f l r, cur, parent, g => by
    rw [evolveTree]
    simp only [List.map_cons, List.map_append, nodeMeta]
    rw [evolveTree_meta ms l, evolveTree_meta ms r]
    simp [recMeta]

theorem evolveTree_seq_lengths (ms : List SimModel) :
    ∀ (t : PTree) (cur : SimModel) (parent : List (Nat × Nat)) (g : Nat),
      (evolveTree ms cur parent t g).1.map (fun rec => rec.seq.length) =
        List.replicate (countTips t + countInternal t) parent.length
  | .tip nm bl f, cur, parent, g => by
    rw [evolveTree]
    simp [countTips, countInternal, evolveBranch_length]
  | .node nm bl f l r, cur, parent, g => by
    rw [evolveTree]
    simp only [List.map_cons, List.map_append, List.length_map,
      evolveTree_seq_lengths ms l, evolveTree_seq_lengths ms r,
      evolveBranch_length]
    have harith : countTips (.node nm bl f l r) + countInternal (.node nm bl f l r) =
        ((countTips l + countInternal l) + (countTips r + countInternal r)) + 1 := by
      simp only [countTips, countInternal]
      omega
    rw [harith, List.replicate_succ]
    simp only [List.replicate_add, List.append_assoc, List.length_nil]

theorem simulatePartition_meta (p : SimPartition) (t : PTree) (g : Nat) :
    (simulatePartition p t g).1.map recMeta = nodeMeta t := by
  match t with
  | .tip nm bl f =>
    rw [simulatePartition]
    simp [nodeMeta, recMeta]
  | .node nm bl f l r =>
    rw [simulatePartition]
    simp only [List.map_cons, List.map_append, nodeMeta]
    rw [evolveTree_meta, evolveTree_meta]
    simp [recMeta]

theorem simulatePartition_seq_lengths (p : SimPartition) (t : PTree) (g : Nat) :
    (simulatePartition p t g).1.map (fun rec => rec.seq.length) =
      List.replicate (countTips t + countInternal t) p.size := by
  match t with
  | .tip nm bl f =>
    rw [simulatePartition]
    simp [countTips, countInternal, rootAssign_length]
  | .node nm bl f l r =>
    rw [simulatePartition]
    simp only [List.map_cons, List.map_append, List.length_map,
      evolveTree_seq_lengths, rootAssign_length]
    have harith : countTips (.node nm bl f l r) + countInternal (.node nm bl f l r) =
        ((countTips l + countInternal l) + (countTips r + countInternal r)) + 1 := by
      simp only [countTips, countInternal]
      omega
    rw [harith, List.replicate_succ]
    simp only [List.replicate_add, List.append_assoc, List.length_nil]

theorem simulatePartition_log (p : SimPartition) (t : PTree) (g : Nat) :
    (simulatePartition p t g).2.1 =
      (rootAssign (rootModelOf p) p.size g).1.map Prod.fst := by
  match t with
  | .tip nm bl f => rw [simulatePartition]
  | .node nm bl f l r => rw [simulatePartition]

theorem emptyRecords_meta : ∀ t : PTree, (emptyRecords t).map recMeta = nodeMeta t
  | .tip nm bl f => rfl
  | .node nm bl f l r => by
    rw [emptyRecords]
    simp only [List.map_cons, List.map_append, nodeMeta]
    rw [emptyRecords_meta l, emptyRecords_meta r]
    simp [recMeta]

theorem emptyRecords_seq_lengths :
    ∀ t : PTree, (emptyRecords t).map (fun rec => rec.seq.length) =
      List.replicate (countTips t + countInternal t) 0
  | .tip nm bl f => rfl
  | .node nm bl f l r => by
    rw [emptyRecords]
    simp only [List.map_cons, List.map_append]
    rw [emptyRecords_seq_lengths l, emptyRecords_seq_lengths r]
    have harith : countTips (.node nm bl f l r) + countInternal (.node nm bl f l r) =
        ((countTips l + countInternal l) + (countTips r + countInternal r)) + 1 := by
      simp only [countTips, countInternal]
      omega
    rw [harith, List.replicate_succ]
    simp only [List.replicate_add, List.append_assoc, List.length_nil]

theorem mergeRecords_meta :
    ∀ (a b : List SeqRecord), a.length = b.length →
      (mergeRecords a b).map recMeta = a.map recMeta
  | [], _, _ => rfl
  | _ :: _, [], h => by simp at h
  | x :: xs, y :: ys, h => by
    rw [mergeRecords]
    simp only [List.zipWith_cons_cons, List.map_cons]
    refine List.cons_eq_cons.mpr ⟨rfl, ?_⟩
    exact mergeRecords_meta xs ys (by simpa using h)

theorem mergeRecords_seq_lengths :
    ∀ (a b : List SeqRecord) (n k1 k2 : Nat),
      a.map (fun rec => rec.seq.length) = List.replicate n k1 →
      b.map (fun rec => rec.seq.length) = List.replicate n k2 →
      (mergeRecords a b).map (fun rec => rec.seq.length) =
        List.replicate n (k1 + k2)
  | [], [], n, k1, k2, h1, _ => by
    have hn : 0 = n := by simpa using congrArg List.length h1
    subst hn
    rfl
  | [], _ :: _, n, k1, k2, h1, h2 => by
    have hn : 0 = n := by simpa using congrArg List.length h1
    subst hn
    simp at h2
  | _ :: _, [], n, k1, k2, h1, h2 => by
    have hn : 0 = n := by simpa using congrArg List.length h2
    subst hn
    simp at h1
  | x :: xs, y :: ys, n, k1, k2, h1, h2 => by
    match n with
    | 0 => simp at h1
    | n + 1 =>
      rw [List.replicate_succ] at h1 h2
      simp only [List.map_cons, List.cons_eq_cons] at h1 h2
      rw [mergeRecords]
      simp only [List.zipWith_cons_cons, List.map_cons, List.replicate_succ]
      refine List.cons_eq_cons.mpr ⟨by simp [h1.1, h2.1], ?_⟩
      exact mergeRecords_seq_lengths xs ys n k1 k2 h1.2 h2.2

/-- Total number of sequence positions across a partition list. -/
def totalSize (ps : List SimPartition) : Nat :=
  (ps.map SimPartition.size).sum

theorem simulateParts_meta : ∀ (ps : List SimPartition) (t : PTree) (g : Nat),
    (simulateParts ps t g).1.map recMeta = nodeMeta t
  | [], t, _ => emptyRecords_meta t
  | p :: ps, t, g => by
    rw [simulateParts]
    have h1 := simulatePartition_meta p t g
    have h2 := simulateParts_meta ps t (simulatePartition p t g).2.2
    have hlen : (simulatePartition p t g).1.length =
        (simulateParts ps t (simulatePartition p t g).2.2).1.length := by
      have e1 := congrArg List.length h1
      have e2 := congrArg List.length h2
      simp only [List.length_map] at e1 e2
      omega
    calc (mergeRecords (simulatePartition p t g).1
            (simulateParts ps t (simulatePartition p t g).2.2).1).map recMeta
        = (simulatePartition p t g).1.map recMeta := mergeRecords_meta _ _ hlen
      _ = nodeMeta t := h1

theorem simulateParts_seq_lengths : ∀ (ps : List SimPartition) (t : PTree) (g : Nat),
    (simulateParts ps t g).1.map (fun rec => rec.seq.length) =
      List.replicate (countTips t + countInternal t) (totalSize ps)
  | [], t, _ => by simpa [totalSize] using emptyRecords_seq_lengths t
  | p :: ps, t, g => by
    rw [simulateParts]
    have h : totalSize (p :: ps) = p.size + totalSize ps := by
      simp [totalSize]
    rw [h]
    exact mergeRecords_seq_lengths _ _ _ _ _
      (simulatePartition_seq_lengths p t g)
      (simulateParts_seq_lengths ps t (simulatePartition p t g).2.2)

theorem simulateParts_log_lengths : ∀ (ps : List SimPartition) (t : PTree) (g : Nat),
    (simulateParts ps t g).2.1.map List.length = ps.map SimPartition.size
  | [], _, _ => rfl
  | p :: ps, t, g => by
    rw [simulateParts]
    simp only [List.map_cons]
    rw [simulatePartition_log]
    simp only [List.length_map, rootAssign_length]
    rw [simulateParts_log_lengths ps t (simulatePartition p t g).2.2]

theorem simulateParts_cats_lt : ∀ (ps : List SimPartition) (t : PTree) (g : Nat),
    (∀ p ∈ ps, (rootModelOf p).probs ≠ []) →
    ∀ pr ∈ List.zip ps (simulateParts ps t g).2.1, ∀ c ∈ pr.2,
      c < (rootModelOf pr.1).probs.length
  | [], _, _, _ => by simp
  | p :: ps, t, g, h => by
    rw [simulateParts]
    simp only [List.zip_cons_cons, List.mem_cons]
    rintro pr (rfl | hpr)
    · intro c hc
      rw [simulatePartition_log] at hc
      exact rootAssign_cats_lt (rootModelOf p) (h p (by simp)) p.size g c hc
    · exact simulateParts_cats_lt ps t (simulatePartition p t g).2.2
        (fun q hq => h q (by simp [hq])) pr hpr

theorem renderPartLog_length (pIdx : Nat) :
    ∀ (site : Nat) (cs : List Nat), (renderPartLog pIdx site cs).length = cs.length
  | _, [] => rfl
  | site, _ :: cs => by
    rw [renderPartLog]
    simpa using renderPartLog_length pIdx (site + 1) cs

theorem rateLogBody_length : ∀ (logs : List (List Nat)) (site pIdx : Nat),
    (rateLogBody logs site pIdx).length = (logs.map List.length).sum
  | [], _, _ => rfl
  | cs :: rest, site, pIdx => by
    rw [rateLogBody]
    simp only [List.length_append, renderPartLog_length, List.map_cons, List.sum_cons]
    rw [rateLogBody_length rest (site + cs.length) (pIdx + 1)]

theorem rateLogLines_length (logs : List (List Nat)) :
    (rateLogLines logs).length = (logs.map List.length).sum + 1 := by
  rw [rateLogLines]
  simp [rateLogBody_length]

theorem filter_tips_length :
    ∀ (recs : List SeqRecord) (meta : List (String × Bool)),
      recs.map recMeta = meta →
      (recs.filter fun r => r.isTip).length = (meta.filter fun m => m.2).length
  | [], [], _ => rfl
  | [], _ :: _, h => by simp at h
  | _ :: _, [], h => by simp at h
  | x :: xs, m :: ms', h => by
    simp only [List.map_cons, List.cons_eq_cons] at h
    rw [List.filter_cons, List.filter_cons]
    have hm : m.2 = x.isTip := by rw [← h.1]; rfl
    rw [hm]
    have ih := filter_tips_length xs ms' h.2
    by_cases hx : x.isTip
    · simp [hx, ih]
    · simp [hx, ih]

theorem nodeMeta_tips : ∀ t : PTree,
    ((nodeMeta t).filter fun m => m.2).length = countTips t
  | .tip nm bl f => rfl
  | .node nm bl f l r => by
    rw [nodeMeta]
    simp only [List.filter_cons, List.filter_append, countTips]
    rw [if_neg (by simp)]
    simp only [List.length_append]
    rw [nodeMeta_tips l, nodeMeta_tips r]

theorem nodeMeta_length : ∀ t : PTree,
    (nodeMeta t).length = countTips t + countInternal t
  | .tip nm bl f => rfl
  | .node nm bl f l r => by
    rw [nodeMeta]
    simp only [List.length_cons, List.length_append]
    rw [nodeMeta_length l, nodeMeta_length r]
    simp only [countTips, countInternal]
    omega

/-- The flags encountered on the way from a subtree's root branch down to
the branch addressed by the path (`false` = left child, `true` = right
child); `none` when the path leaves the tree. -/
def subFlags : PTree → List Bool → Option (List (Option String))
  | t, [] => some [flagOf t]
  | .tip _ _ _, _ :: _ => none
  | .node _ _ f l r, d :: p =>
    (subFlags (if d then r else l) p).map fun fs => f :: fs

/-- Modelled from the spec: the model assigned to the branch addressed by a
path, threading the inherited model through each branch flag exactly as the
traversal does. -/
def activeModelAt (ms : List SimModel) (cur : SimModel) :
    PTree → List Bool → Option SimModel
  | t, [] => some (resolveFlag ms (flagOf t) cur)
  | .tip _ _ _, _ :: _ => none
  | .node _ _ f l r, d :: p =>
    activeModelAt ms (resolveFlag ms f cur) (if d then r else l) p

/-- Folding the branch flags over an inherited model, the order in which
the traversal applies them. -/
def chainModel (ms : List SimModel) (base : SimModel)
    (fs : List (Option String)) : SimModel :=
  fs.foldl (fun cur f => resolveFlag ms f cur) base

/-- The nearest-label reading of the spec: the model named by the last flag
on the path that resolves in the partition's model set, if any. -/
def lastResolved (ms : List SimModel) : List (Option String) → Option SimModel
  | [] => none
  | f :: fs =>
    match lastResolved ms fs with
    | some m => some m
    | none => f.bind (findModel ms)

/-- The branch model of the node addressed by a nonempty path from the root
(the root's own flag governs no branch). -/
def branchModelAt (ms : List SimModel) (base : SimModel) :
    PTree → List Bool → Option SimModel
  | .node _ _ _ l r, d :: p => activeModelAt ms base (if d then r else l) p
  | _, _ => none

theorem chainModel_cons (ms : List SimModel) (base : SimModel)
    (f : Option String) (fs : List (Option String)) :
    chainModel ms base (f :: fs) = chainModel ms (resolveFlag ms f base) fs := rfl

theorem chainModel_lastResolved (ms : List SimModel) :
    ∀ (fs : List (Option String)) (base : SimModel),
      chainModel ms base fs = (lastResolved ms fs).getD base
  | [], base => rfl
  | f :: fs, base => by
    rw [chainModel_cons, chainModel_lastResolved ms fs, lastResolved]
    cases h : lastResolved ms fs with
    | some m => simp
    | none =>
      cases f with
      | none => simp [resolveFlag]
      | some nm => simp [resolveFlag]

theorem activeModelAt_subFlags (ms : List SimModel) :
    ∀ (t : PTree) (p : List Bool) (cur : SimModel),
      activeModelAt ms cur t p = (subFlags t p).map fun fs => chainModel ms cur fs
  | t, [], cur => by
    cases t <;> rfl
  | .tip nm bl f, _ :: p, cur => rfl
  | .node nm bl f l r, d :: p, cur => by
    rw [activeModelAt, subFlags,
      activeModelAt_subFlags ms (if d then r else l) p (resolveFlag ms f cur)]
    cases h : subFlags (if d then r else l) p with
    | none => simp [h]
    | some fs => simp [h, chainModel_cons]

/-- Validation failures of the common builder contract. -/
inductive BuildError where
  | missingParameter : BuildError
  | badFrequencies : BuildError
  | positiveDiagonal : BuildError

/-- The parameter set handed to a builder; `none` marks a required
parameter the caller did not supply. -/
structure BuilderInput (n : ℕ) where
  rates : Option (Fin n → Fin n → ℚ)
  freqs : Option (Fin n → ℚ)

/-- The tolerance within which a supplied frequency vector must sum to 1. -/
def freqTol : ℚ := 1 / 10 ^ 8

/-- Modelled from the spec: the common validating contract of `buildQ()`
(missing source file `matrix_builder.py`).  It fails when a required
parameter is missing, when the frequency vector does not sum to 1 within
tolerance, or when a resulting diagonal entry would be positive; otherwise
it returns the built matrix. -/
def checkedBuildQ {n : ℕ} (inp : BuilderInput n) :
    Except BuildError (Matrix (Fin n) (Fin n) ℚ) :=
  match inp.rates, inp.freqs with
  | none, _ => .error .missingParameter
  | some _, none => .error .missingParameter
  | some r, some f =>
    if |(∑ j, f j) - 1| ≤ freqTol then
      if ∀ i, buildQgen (fun i j => r i j * f j) i i ≤ 0 then
        .ok (buildQgen fun i j => r i j * f j)
      else .error .positiveDiagonal
    else .error .badFrequencies

/-- Modelled from the spec: the simulation gate — a run starts only from a
successfully validated matrix, so a construction error propagates and no
output is produced. -/
def runIfValid {n : ℕ} (inp : BuilderInput n)
    (run : Matrix (Fin n) (Fin n) ℚ → List SeqRecord) :
    Except BuildError (List SeqRecord) :=
  (checkedBuildQ inp).map run

/-- Equal nucleotide frequencies, the distribution used throughout the
evolver test suite. -/
def jcRow : List ℚ := [1/4, 1/4, 1/4, 1/4]

/-- The homogeneous nucleotide model of the test suite: equal
exchangeabilities, equal frequencies, a single default rate category. -/
def exampleModel : SimModel :=
  ⟨"m1", jcRow, [1], [1], fun _ _ _ => jcRow⟩

/-- The single 10-position partition of `evolver_singlepart_nohet_tests`. -/
def examplePartition : SimPartition :=
  ⟨10, [exampleModel], none⟩

/-- The second, 12-position partition of `evolver_twopart_nohet_tests`. -/
def examplePartition12 : SimPartition :=
  ⟨12, [exampleModel], none⟩

/-- The unlabeled test tree
`(((t2:0.36,t1:0.45):0.001,t3:0.77):0.44,(t5:0.77,t4:0.41):0.89);` with
synthetic internal-node names. -/
def exampleTree : PTree :=
  .node "root" 0 none
    (.node "internal1" (44/100) none
      (.node "internal2" (1/1000) none
        (.tip "t2" (36/100) none)
        (.tip "t1" (45/100) none))
      (.tip "t3" (77/100) none))
    (.node "internal3" (89/100) none
      (.tip "t5" (77/100) none)
      (.tip "t4" (41/100) none))

/-- The three-category site-heterogeneity model of `evolver_sitehet_tests`
(rates 2.0783848, 0.89073634, 0.05938242 with probabilities
0.33/0.33/0.34, written as rationals). -/
def sitehetModel : SimModel :=
  ⟨"m1", jcRow, [33/100, 33/100, 34/100],
    [20783848/10000000, 89073634/100000000, 5938242/100000000],
    fun _ _ _ => jcRow⟩

/-- The 12-position site-heterogeneous partition of `evolver_sitehet_tests`. -/
def sitehetPartition : SimPartition :=
  ⟨12, [sitehetModel], none⟩

/-- The base model of the branch-heterogeneity scenario. -/
def hetBase : SimModel :=
  ⟨"base", jcRow, [1], [1], fun _ _ _ => jcRow⟩

/-- The model bound to the `_m1_` branch label. -/
def hetM1 : SimModel :=
  ⟨"m1", jcRow, [1], [1], fun _ _ _ => jcRow⟩

/-- The model bound to the `_m2_` branch label. -/
def hetM2 : SimModel :=
  ⟨"m2", jcRow, [1], [1], fun _ _ _ => jcRow⟩

/-- The designated root model of the branch-heterogeneity scenario,
distinct from every branch label. -/
def hetRootModel : SimModel :=
  ⟨"root_model", jcRow, [1], [1], fun _ _ _ => jcRow⟩

/-- The branch-heterogeneous 10-position partition of
`evolver_branchhet_tests`. -/
def hetPartition : SimPartition :=
  ⟨10, [hetBase, hetM1, hetM2, hetRootModel], some "root_model"⟩

/-- The labeled test tree
`(((t2:0.36_m2_,t1:0.45):0.001,t3:0.77):0.44_m1_,(t5:0.77,t4:0.41):0.89);`. -/
def hetTree : PTree :=
  .node "root" 0 none
    (.node "internal1" (44/100) (some "m1")
      (.node "internal2" (1/1000) none
        (.tip "t2" (36/100) (some "m2"))
        (.tip "t1" (45/100) none))
      (.tip "t3" (77/100) none))
    (.node "internal3" (89/100) none
      (.tip "t5" (77/100) none)
      (.tip "t4" (41/100) none))

/-- A concrete two-state rate matrix used to exercise the
transition-probability engine. -/
def exampleQ : Matrix (Fin 2) (Fin 2) ℝ :=
  buildQgen fun _ _ => 1

/-- C1: for every rate matrix Q returned by any builder's buildQ()
(nucleotide, amino-acid, mechanistic codon, empirical codon, or
mutation-selection), every row of Q sums to 0 (hence within 1e-10), with
off-diagonal entries ≥ 0 and each diagonal entry equal to the negated sum
of its row's off-diagonal entries, given nonnegative builder parameters. -/
theorem claim_C1 :
    (∀ (exch : Fin 4 → Fin 4 → ℝ) (freq : Fin 4 → ℝ),
      (∀ i j, 0 ≤ exch i j) → (∀ j, 0 ≤ freq j) →
      Qwellformed (nucleotide_buildQ exch freq)) ∧
    (∀ (exch : Fin 20 → Fin 20 → ℝ) (freq : Fin 20 → ℝ),
      (∀ i j, 0 ≤ exch i j) → (∀ j, 0 ≤ freq j) →
      Qwellformed (aminoAcid_buildQ exch freq)) ∧
    (∀ (exch : Fin 61 → Fin 61 → ℝ) (freq : Fin 61 → ℝ)
      (allowed : Fin 61 → Fin 61 → Bool),
      (∀ i j, 0 ≤ exch i j) → (∀ j, 0 ≤ freq j) →
      Qwellformed (ECM_buildQ exch freq allowed)) ∧
    (∀ (mu : Fin 4 → Fin 4 → ℝ) (sel : ℝ)
      (nucChange : Fin 61 → Fin 61 → Option (Fin 4 × Fin 4))
      (aa : Fin 61 → Fin 21),
      (∀ a b, 0 ≤ mu a b) → 0 ≤ sel →
      Qwellformed (mechCodon_buildQ mu sel nucChange aa)) ∧
    (∀ (n : ℕ) (mu : Fin n → Fin n → ℝ) (fitness : Fin n → ℝ),
      (∀ i j, 0 ≤ mu i j) →
      Qwellformed (mutSel_buildQ mu fitness)) := by
  refine ⟨?_, ?_, ?_, ?_, ?_⟩
  · intro exch freq he hf
    exact buildQgen_wellformed _ fun i j _ => mul_nonneg (he i j) (hf j)
  · intro exch freq he hf
    exact buildQgen_wellformed _ fun i j _ => mul_nonneg (he i j) (hf j)
  · intro exch freq allowed he hf
    refine buildQgen_wellformed _ fun i j _ => ?_
    unfold ECMRate
    split
    · exact mul_nonneg (he i j) (hf j)
    · exact le_refl 0
  · intro mu sel nucChange aa hmu hsel
    refine buildQgen_wellformed _ fun i j _ => ?_
    unfold mechCodonRate
    cases nucChange i j with
    | none => exact le_refl 0
    | some p =>
      refine mul_nonneg (hmu p.1 p.2) ?_
      split
      · exact zero_le_one
      · exact hsel
  · intro n mu fitness hmu
    exact buildQgen_wellformed _ fun i j _ =>
      mul_nonneg (hmu i j) (le_of_lt (fixationFunction_pos _))

theorem claim_C1_witness :
    Qwellformed (nucleotide_buildQ (fun _ _ => 1) fun _ => 1/4) ∧
    Qwellformed (aminoAcid_buildQ (fun _ _ => 1) fun _ => 1/20) ∧
    Qwellformed (ECM_buildQ (fun _ _ => 1) (fun _ => 1/61) fun _ _ => true) ∧
    Qwellformed (mechCodon_buildQ (fun _ _ => 1) (1/2) (fun _ _ => some (0, 0))
      fun _ => 0) ∧
    Qwellformed (mutSel_buildQ (n := 4) (fun _ _ => 1) fun _ => 0) :=
  ⟨claim_C1.1 _ _ (fun _ _ => by norm_num) fun _ => by norm_num,
   claim_C1.2.1 _ _ (fun _ _ => by norm_num) fun _ => by norm_num,
   claim_C1.2.2.1 _ _ _ (fun _ _ => by norm_num) fun _ => by norm_num,
   claim_C1.2.2.2.1 _ _ _ _ (fun _ _ => by norm_num) (by norm_num),
   claim_C1.2.2.2.2 _ _ _ fun _ _ => by norm_num⟩

/-- C2: for every rate matrix whose rows sum to zero and every branch
length t ≥ 0, the transition-probability matrix P(t) = exp(Q·t) has every
row summing to 1 (hence within 1e-6), and P(0) is the identity matrix. -/
theorem claim_C2 {n : ℕ} (Q : Matrix (Fin n) (Fin n) ℝ) (t : ℝ)
    (hQ : ∀ i, ∑ j, Q i j = 0) (ht : 0 ≤ t) :
    (∀ i, ∑ j, transitionMatrix Q t i j = 1) ∧
    (∀ i, |(∑ j, transitionMatrix Q t i j) - 1| ≤ 1 / 10 ^ 6) ∧
    transitionMatrix Q 0 = 1 := by
  refine ⟨transitionMatrix_rowsum Q t hQ, ?_, transitionMatrix_zero Q⟩
  intro i
  rw [transitionMatrix_rowsum Q t hQ i]
  norm_num

theorem claim_C2_witness :
    (∑ j, transitionMatrix exampleQ 1 0 j = 1) ∧
    transitionMatrix exampleQ 0 = 1 :=
  ⟨(claim_C2 exampleQ 1 (buildQgen_rowsum _) (by norm_num)).1 0,
   (claim_C2 exampleQ 1 (buildQgen_rowsum _) (by norm_num)).2.2⟩

/-- C7: in the mutation-selection builder, rate(i→j) equals
mutationRate(i→j) × fixationFunction(fitness(j) − fitness(i)), where
fixationFunction(0) = 1 and, for x ≠ 0, fixationFunction(x) =
x / (1 − e^(−x)) with a provably nonzero denominator, so no division by
zero occurs for any fitness inputs, including equal fitnesses. -/
theorem claim_C7 {n : ℕ} (mu : Fin n → Fin n → ℝ) (fitness : Fin n → ℝ)
    (i j : Fin n) (x : ℝ) :
    mutSelRate mu fitness i j =
      mu i j * fixationFunction (fitness j - fitness i) ∧
    fixationFunction 0 = 1 ∧
    (x ≠ 0 → 1 - Real.exp (-x) ≠ 0 ∧
      fixationFunction x = x / (1 - Real.exp (-x))) ∧
    (fitness i = fitness j → mutSelRate mu fitness i j = mu i j) := by
  refine ⟨rfl, fixationFunction_zero, fun hx => ⟨fixation_denom_ne_zero hx, ?_⟩, ?_⟩
  · rw [fixationFunction, if_neg hx]
  · intro hfit
    rw [mutSelRate, hfit, sub_self, fixationFunction_zero, mul_one]

theorem claim_C7_witness :
    (1 - Real.exp (-(1 : ℝ)) ≠ 0 ∧
      fixationFunction 1 = 1 / (1 - Real.exp (-(1 : ℝ)))) ∧
    mutSelRate (n := 2) (fun _ _ => 3) (fun _ => 0) 0 1 = 3 :=
  ⟨(claim_C7 (n := 2) (fun _ _ => 3) (fun _ => 0) 0 1 1).2.2.1 (by norm_num),
   (claim_C7 (n := 2) (fun _ _ => 3) (fun _ => 0) 0 1 1).2.2.2 rfl⟩

/-- C3: for a single partition of K sites with no heterogeneity, the
output has exactly countTips(t) sequences of length K when ancestors are
excluded and countTips(t) + countInternal(t) sequences of length K when
they are included; concretely, for the 5-leaf test tree and one partition
of size 10, the leaf-only output has 5 sequences of length 10 and the
ancestral-inclusive output has 9 sequences of length 10. -/
theorem claim_C3 :
    (∀ (p : SimPartition) (t : PTree) (g : Nat),
      ((simulateParts [p] t g).1.filter fun r => r.isTip).length = countTips t ∧
      (simulateParts [p] t g).1.length = countTips t + countInternal t ∧
      (simulateParts [p] t g).1.map (fun rec => rec.seq.length) =
        List.replicate (countTips t + countInternal t) p.size) ∧
    (((simulateParts [examplePartition] exampleTree 2025).1.filter
        fun r => r.isTip).length = 5 ∧
      (simulateParts [examplePartition] exampleTree 2025).1.length = 9 ∧
      (simulateParts [examplePartition] exampleTree 2025).1.map
        (fun rec => rec.seq.length) = List.replicate 9 10) := by
  have hgen : ∀ (p : SimPartition) (t : PTree) (g : Nat),
      ((simulateParts [p] t g).1.filter fun r => r.isTip).length = countTips t ∧
      (simulateParts [p] t g).1.length = countTips t + countInternal t ∧
      (simulateParts [p] t g).1.map (fun rec => rec.seq.length) =
        List.replicate (countTips t + countInternal t) p.size := by
    intro p t g
    refine ⟨?_, ?_, ?_⟩
    · rw [filter_tips_length _ _ (simulateParts_meta [p] t g), nodeMeta_tips]
    · have h := congrArg List.length (simulateParts_meta [p] t g)
      simp only [List.length_map] at h
      rw [h, nodeMeta_length]
    · have h := simulateParts_seq_lengths [p] t g
      rwa [show totalSize [p] = p.size by simp [totalSize]] at h
  refine ⟨hgen, ?_, ?_, ?_⟩
  · rw [(hgen examplePartition exampleTree 2025).1]
    rfl
  · rw [(hgen examplePartition exampleTree 2025).2.1]
    rfl
  · rw [(hgen examplePartition exampleTree 2025).2.2]
    rfl

/-- C4: for two independently simulated partitions of sizes K1 and K2,
every node's output sequence is the positional concatenation of the two
partitions' sequences, of length K1 + K2; concretely, partitions of sizes
10 and 12 over the 5-leaf test tree give every node a sequence of
length 22. -/
theorem claim_C4 :
    (∀ (p1 p2 : SimPartition) (t : PTree) (g : Nat),
      (simulateParts [p1, p2] t g).1 =
        mergeRecords (simulatePartition p1 t g).1
          (simulateParts [p2] t (simulatePartition p1 t g).2.2).1 ∧
      (simulateParts [p1, p2] t g).1.map (fun rec => rec.seq.length) =
        List.replicate (countTips t + countInternal t) (p1.size + p2.size)) ∧
    ((simulateParts [examplePartition, examplePartition12] exampleTree 2025).1.map
        (fun rec => rec.seq.length) = List.replicate 9 22 ∧
      ((simulateParts [examplePartition, examplePartition12] exampleTree 2025).1.filter
        fun r => r.isTip).length = 5) := by
  have hgen : ∀ (p1 p2 : SimPartition) (t : PTree) (g : Nat),
      (simulateParts [p1, p2] t g).1.map (fun rec => rec.seq.length) =
        List.replicate (countTips t + countInternal t) (p1.size + p2.size) := by
    intro p1 p2 t g
    have h := simulateParts_seq_lengths [p1, p2] t g
    rwa [show totalSize [p1, p2] = p1.size + p2.size by simp [totalSize]] at h
  refine ⟨fun p1 p2 t g => ⟨rfl, hgen p1 p2 t g⟩, ?_, ?_⟩
  · rw [hgen examplePartition examplePartition12 exampleTree 2025]
    rfl
  · rw [filter_tips_length _ _
      (simulateParts_meta [examplePartition, examplePartition12] exampleTree 2025),
      nodeMeta_tips]
    rfl

/-- C5: the rate-category log over P total positions has exactly P + 1
lines (header plus one line per position), and every logged rate-category
index lies in [1, number of declared categories] for that position's
partition. -/
theorem claim_C5 (ps : List SimPartition) (t : PTree) (g : Nat)
    (h : ∀ p ∈ ps, (rootModelOf p).probs ≠ []) :
    (rateLogLines (simulateParts ps t g).2.1).length = totalSize ps + 1 ∧
    (∀ pr ∈ List.zip ps (simulateParts ps t g).2.1, ∀ c ∈ pr.2,
      1 ≤ c + 1 ∧ c + 1 ≤ (rootModelOf pr.1).probs.length) := by
  constructor
  · rw [rateLogLines_length, simulateParts_log_lengths]
    rfl
  · intro pr hpr c hc
    have hlt := simulateParts_cats_lt ps t g h pr hpr c hc
    omega

theorem claim_C5_witness :
    (rateLogLines (simulateParts [sitehetPartition] exampleTree 5).2.1).length = 13 :=
  (claim_C5 [sitehetPartition] exampleTree 5 (by
    intro p hp
    rcases List.mem_singleton.mp hp with rfl
    simp [rootModelOf, sitehetPartition, baseModel, sitehetModel])).1.trans rfl

/-- C6: for every fixed random seed and identical inputs, repeated
simulation runs produce byte-identical output sequences and byte-identical
rate logs — the simulation is a deterministic function of the seed and the
inputs. -/
theorem claim_C6 (ps1 ps2 : List SimPartition) (t1 t2 : PTree)
    (g1 g2 : Nat) (anc : Bool) (hp : ps1 = ps2) (ht : t1 = t2)
    (hg : g1 = g2) :
    writeSequences anc (simulateParts ps1 t1 g1).1 =
      writeSequences anc (simulateParts ps2 t2 g2).1 ∧
    rateLogRender (simulateParts ps1 t1 g1).2.1 =
      rateLogRender (simulateParts ps2 t2 g2).2.1 := by
  subst hp
  subst ht
  subst hg
  exact ⟨rfl, rfl⟩

theorem claim_C6_witness :
    writeSequences false (simulateParts [examplePartition] exampleTree 7).1 =
      writeSequences false (simulateParts [examplePartition] exampleTree 7).1 ∧
    rateLogRender (simulateParts [examplePartition] exampleTree 7).2.1 =
      rateLogRender (simulateParts [examplePartition] exampleTree 7).2.1 :=
  claim_C6 [examplePartition] [examplePartition] exampleTree exampleTree
    7 7 false rfl rfl rfl

/-- C8: buildQ() signals a construction error and returns no matrix when a
required parameter is missing, when the supplied frequency vector does not
sum to 1 within tolerance, or when a resulting diagonal entry would be
positive; a returned matrix satisfies the row-sum-zero invariant, and a
construction error propagates through the simulation gate so the
simulation does not proceed. -/
theorem claim_C8 {n : ℕ} (inp : BuilderInput n) :
    (inp.rates = none ∨ inp.freqs = none →
      checkedBuildQ inp = .error .missingParameter) ∧
    (∀ (r : Fin n → Fin n → ℚ) (f : Fin n → ℚ),
      inp.rates = some r → inp.freqs = some f →
      ¬ |(∑ j, f j) - 1| ≤ freqTol →
      checkedBuildQ inp = .error .badFrequencies) ∧
    (∀ (r : Fin n → Fin n → ℚ) (f : Fin n → ℚ),
      inp.rates = some r → inp.freqs = some f →
      |(∑ j, f j) - 1| ≤ freqTol →
      ¬ (∀ i, buildQgen (fun i j => r i j * f j) i i ≤ 0) →
      checkedBuildQ inp = .error .positiveDiagonal) ∧
    (∀ Q, checkedBuildQ inp = .ok Q →
      (∀ i, ∑ j, Q i j = 0) ∧ (∀ i, Q i i ≤ 0)) ∧
    (∀ (e : BuildError) (run : Matrix (Fin n) (Fin n) ℚ → List SeqRecord),
      checkedBuildQ inp = .error e → runIfValid inp run = .error e) := by
  obtain ⟨orates, ofreqs⟩ := inp
  refine ⟨?_, ?_, ?_, ?_, ?_⟩
  · rintro (hr | hf)
    · replace hr : orates = none := hr
      subst hr
      rfl
    · replace hf : ofreqs = none := hf
      subst hf
      cases orates <;> rfl
  · intro r f hr hf hsum
    replace hr : orates = some r := hr
    replace hf : ofreqs = some f := hf
    subst hr
    subst hf
    simp only [checkedBuildQ]
    rw [if_neg hsum]
  · intro r f hr hf hsum hdiag
    replace hr : orates = some r := hr
    replace hf : ofreqs = some f := hf
    subst hr
    subst hf
    simp only [checkedBuildQ]
    rw [if_pos hsum, if_neg hdiag]
  · intro Q hQ
    cases orates with
    | none => exact absurd hQ (by simp [checkedBuildQ])
    | some r =>
      cases ofreqs with
      | none => exact absurd hQ (by simp [checkedBuildQ])
      | some f =>
        simp only [checkedBuildQ] at hQ
        split at hQ
        · split at hQ
          · rename_i hdiag
            have hQeq : buildQgen (fun i j => r i j * f j) = Q := by
              simpa using hQ
            subst hQeq
            exact ⟨buildQgen_rowsum _, hdiag⟩
          · exact absurd hQ (by simp)
        · exact absurd hQ (by simp)
  · intro e run he
    rw [runIfValid, he]
    rfl

theorem claim_C8_witness :
    checkedBuildQ (n := 2) ⟨none, some fun _ => 1/2⟩ =
      .error .missingParameter ∧
    checkedBuildQ (n := 2) ⟨some fun _ _ => 1, some fun _ => 1/3⟩ =
      .error .badFrequencies ∧
    checkedBuildQ (n := 2) ⟨some fun _ _ => -1, some fun _ => 1/2⟩ =
      .error .positiveDiagonal :=
  ⟨(claim_C8 _).1 (Or.inl rfl),
   (claim_C8 _).2.1 _ _ rfl rfl
     (by norm_num [Fin.sum_univ_two, freqTol, abs_le]),
   (claim_C8 _).2.2.1 _ _ rfl rfl
     (by norm_num [Fin.sum_univ_two, freqTol, abs_le])
     (by
       intro hall
       have h0 := hall 0
       rw [buildQgen_diag] at h0
       have he : ∑ k ∈ Finset.univ.erase (0 : Fin 2),
           ((-1 : ℚ) * (1/2)) = -(1/2) := by
         rw [Finset.sum_const, Finset.card_erase_of_mem (Finset.mem_univ 0)]
         simp
       rw [he] at h0
       norm_num at h0)⟩

/-- C9: branch-model resolution follows the nearest labeled
ancestor-or-self rule — threading the inherited model through the flags on
the path (as the traversal does) yields the model named by the last
resolvable label, or the partition's base model when the path carries no
resolvable label — and the designated root model governs exactly the
initial root draw; on the labeled test tree, m2 governs t2's branch, m1
governs the rest of its labeled clade, the base model governs the
unlabeled clade, and the partition's designated root model is
`root_model`. -/
theorem claim_C9 :
    (∀ (ms : List SimModel) (base : SimModel) (fs : List (Option String)),
      chainModel ms base fs = (lastResolved ms fs).getD base) ∧
    (∀ (ms : List SimModel) (cur : SimModel) (t : PTree) (p : List Bool),
      activeModelAt ms cur t p = (subFlags t p).map fun fs => chainModel ms cur fs) ∧
    (∀ (p : SimPartition) (t : PTree) (g : Nat),
      (simulatePartition p t g).1.head?.map (fun r => r.seq) =
        some ((rootAssign (rootModelOf p) p.size g).1.map Prod.snd)) ∧
    ((rootModelOf hetPartition).name = "root_model" ∧
      (branchModelAt hetPartition.models (baseModel hetPartition) hetTree
        [false, false, false]).map SimModel.name = some "m2" ∧
      (branchModelAt hetPartition.models (baseModel hetPartition) hetTree
        [false, false, true]).map SimModel.name = some "m1" ∧
      (branchModelAt hetPartition.models (baseModel hetPartition) hetTree
        [false, true]).map SimModel.name = some "m1" ∧
      (branchModelAt hetPartition.models (baseModel hetPartition) hetTree
        [false]).map SimModel.name = some "m1" ∧
      (branchModelAt hetPartition.models (baseModel hetPartition) hetTree
        [true]).map SimModel.name = some "base" ∧
      (branchModelAt hetPartition.models (baseModel hetPartition) hetTree
        [true, false]).map SimModel.name = some "base" ∧
      (branchModelAt hetPartition.models (baseModel hetPartition) hetTree
        [true, true]).map SimModel.name = some "base") := by
  refine ⟨fun ms base fs => chainModel_lastResolved ms fs base,
    fun ms cur t p => activeModelAt_subFlags ms t p cur, ?_, ?_⟩
  · intro p t g
    cases t with
    | tip nm bl f => rfl
    | node nm bl f l r => rfl
  · refine ⟨rfl, ?_, ?_, ?_, ?_, ?_, ?_, ?_⟩ <;> rfl

/-- C10: for a partition whose models each have only the default single
rate category, the emitted rate log is independent of branch
heterogeneity — any two single-partition runs whose root models carry the
single default category and whose sizes agree produce byte-identical rate
files, with every position logged in category 1 (category draw 0). -/
theorem claim_C10 (p1 p2 : SimPartition) (t1 t2 : PTree) (g1 g2 : Nat)
    (h1 : (rootModelOf p1).probs = [1]) (h2 : (rootModelOf p2).probs = [1])
    (hs : p1.size = p2.size) :
    (simulateParts [p1] t1 g1).2.1 = [List.replicate p1.size 0] ∧
    rateLogRender (simulateParts [p1] t1 g1).2.1 =
      rateLogRender (simulateParts [p2] t2 g2).2.1 := by
  have e1 : (simulateParts [p1] t1 g1).2.1 = [List.replicate p1.size 0] := by
    rw [simulateParts]
    simp only [simulatePartition_log, simulateParts]
    rw [rootAssign_cats_single (rootModelOf p1) 1 h1]
  have e2 : (simulateParts [p2] t2 g2).2.1 = [List.replicate p2.size 0] := by
    rw [simulateParts]
    simp only [simulatePartition_log, simulateParts]
    rw [rootAssign_cats_single (rootModelOf p2) 1 h2]
  refine ⟨e1, ?_⟩
  rw [e1, e2, hs]

theorem claim_C10_witness :
    (simulateParts [hetPartition] hetTree 11).2.1 = [List.replicate 10 0] ∧
    rateLogRender (simulateParts [hetPartition] hetTree 11).2.1 =
      rateLogRender (simulateParts [examplePartition] exampleTree 12).2.1 :=
  claim_C10 hetPartition examplePartition hetTree exampleTree 11 12
    rfl rfl rfl

end Pyvolve
